import Mathlib

/-
Verification of the core query/normalization/favorites logic of the
brewing-society paper-search application (src/app.py).

The Python source is shallowly embedded: Python strings are Lean String
values (sequences of Unicode code points), regex character classes become
decidable character predicates, Python dicts become association lists or
functions into Option, Python sets become Finset, and pandas boolean-mask
filtering becomes List.filter.  Modeling notes:

* The Python regex class \s and the default str.strip set are modeled by
  one predicate, isPySpace, covering the standard Unicode whitespace code
  points Python treats as whitespace.
* Python str.lower is modeled on the ASCII range (lowerChar); characters
  outside A-Z are left unchanged, which agrees with Python on all the
  CJK and punctuation data this application handles.
* Python int(...) is modeled by pyIntParse (optional sign followed by
  ASCII digits) and the regex fallback re.search of one digit run is
  modeled by firstDigitRun; this mirrors the best-effort contract of
  to_int_or_none in the source.
* pandas to_numeric on the year column is library code; a Record carries
  the parse result of its year cell as an Option Int.
-/

namespace BrewApp

/-- Characters the Python code treats as whitespace (regex class bs-s on
str input and the default str.strip set): space, tab, newline and other
C0 spacing controls, NEL, NBSP, ogham space, the U+2000 block spaces,
line and paragraph separators, narrow and medium spaces, and the
ideographic space U+3000. -/
def isPySpace (c : Char) : Bool :=
  decide (c.toNat = 32) ||
  (decide (9 ≤ c.toNat) && decide (c.toNat ≤ 13)) ||
  (decide (28 ≤ c.toNat) && decide (c.toNat ≤ 31)) ||
  decide (c.toNat = 0x85) ||
  decide (c.toNat = 0xA0) ||
  decide (c.toNat = 0x1680) ||
  (decide (0x2000 ≤ c.toNat) && decide (c.toNat ≤ 0x200A)) ||
  decide (c.toNat = 0x2028) ||
  decide (c.toNat = 0x2029) ||
  decide (c.toNat = 0x202F) ||
  decide (c.toNat = 0x205F) ||
  decide (c.toNat = 0x3000)

/-- Separator class of AUTHOR_SPLIT_RE in the source: semicolons,
commas (ASCII, full-width, ideographic), slashes and vertical bars in
both ASCII and full-width forms. -/
def isAuthorSep (c : Char) : Bool :=
  decide (c.toNat = 59) ||        -- ;
  decide (c.toNat = 0xFF1B) ||    -- full-width semicolon
  decide (c.toNat = 44) ||        -- ,
  decide (c.toNat = 0x3001) ||    -- ideographic comma
  decide (c.toNat = 0xFF0C) ||    -- full-width comma
  decide (c.toNat = 47) ||        -- /
  decide (c.toNat = 0xFF0F) ||    -- full-width slash
  decide (c.toNat = 124) ||       -- |
  decide (c.toNat = 0xFF5C)       -- full-width vertical bar

/-- Separator class of tokens_from_query and parse_tags in the source:
space, ASCII comma, full-width comma, ideographic comma, full-width
semicolon, ASCII semicolon, ideographic space. -/
def isQuerySep (c : Char) : Bool :=
  decide (c.toNat = 32) ||
  decide (c.toNat = 44) ||
  decide (c.toNat = 0xFF0C) ||
  decide (c.toNat = 0x3001) ||
  decide (c.toNat = 0xFF1B) ||
  decide (c.toNat = 59) ||
  decide (c.toNat = 0x3000)

/-- Separator class of split_multi in the source: the author separators
plus any whitespace (the class explicitly lists the ideographic space,
already covered by isPySpace). -/
def isMultiSep (c : Char) : Bool :=
  isAuthorSep c || isPySpace c

/-- ASCII lowercasing, the fragment of Python str.lower exercised by the
data handled here. -/
def lowerChar (c : Char) : Char :=
  if 65 ≤ c.toNat ∧ c.toNat ≤ 90 then Char.ofNat (c.toNat + 32) else c

/-- First step of norm_space: the NBSP replacement together with the
regex substitution turns every whitespace code point into a plain
space. -/
def subSpace (c : Char) : Char :=
  if isPySpace c then ' ' else c

/-- Second step of norm_space: the regex substitution collapses runs of
whitespace (already mapped to plain spaces) to a single space. -/
def squeezeSpaces : List Char → List Char
  | [] => []
  | [c] => [c]
  | c :: d :: rest =>
      if c = ' ' ∧ d = ' ' then squeezeSpaces (d :: rest)
      else c :: squeezeSpaces (d :: rest)

/-- Python str.strip with the default whitespace set, on the character
list level. -/
def stripPy (l : List Char) : List Char :=
  ((l.dropWhile isPySpace).reverse.dropWhile isPySpace).reverse

/-- Python str.strip on String. -/
def pyStrip (s : String) : String :=
  ⟨stripPy s.data⟩

/-- norm_space from the source: replace NBSP by a space, collapse every
whitespace run to a single space, strip. -/
def norm_space (s : String) : String :=
  ⟨stripPy (squeezeSpaces (s.data.map subSpace))⟩

/-- norm_key from the source: norm_space followed by lowercasing. -/
def norm_key (s : String) : String :=
  ⟨(norm_space s).data.map lowerChar⟩

/-- Regex split on a run of separator characters, dropping empty pieces.
The accumulator holds the current token reversed. -/
def splitGo (p : Char → Bool) : List Char → List Char → List (List Char)
  | [], acc => if acc = [] then [] else [acc.reverse]
  | c :: cs, acc =>
      if p c then
        if acc = [] then splitGo p cs [] else acc.reverse :: splitGo p cs []
      else splitGo p cs (c :: acc)

/-- Split a character list on runs of characters satisfying p, dropping
empty tokens (the behavior of re.split with a one-class-plus pattern
followed by dropping falsy entries). -/
def splitOnPred (p : Char → Bool) (l : List Char) : List (List Char) :=
  splitGo p l []

/-- split_authors from the source: strict split on the author separator
class only, each piece stripped, empty pieces dropped. -/
def split_authors (cell : String) : List String :=
  ((splitOnPred isAuthorSep cell.data).map
    (fun l => pyStrip (⟨l⟩ : String))).filter (fun w => decide (w ≠ ""))

/-- split_multi from the source: split on the author separator class
plus whitespace, each piece stripped, empty pieces dropped. -/
def split_multi (s : String) : List String :=
  ((splitOnPred isMultiSep s.data).map
    (fun l => pyStrip (⟨l⟩ : String))).filter (fun w => decide (w ≠ ""))

/-- tokens_from_query from the source: normalize the query with
norm_key, then split on the query separator class, dropping empty
tokens (no per-token strip in the source). -/
def tokens_from_query (q : String) : List String :=
  (splitOnPred isQuerySep (norm_key q).data).map (fun l => (⟨l⟩ : String))

/-- Boolean test that t occurs at the start of l. -/
def begWith : List Char → List Char → Bool
  | [], _ => true
  | _ :: _, [] => false
  | a :: t, b :: l => decide (a = b) && begWith t l

/-- Boolean substring containment (Python operator in on strings). -/
def hasSub (t : List Char) : List Char → Bool
  | [] => begWith t []
  | b :: l => begWith t (b :: l) || hasSub t l

/-- Code-point lexicographic order on character lists, the order Python
uses to compare and sort strings. -/
def lexLe : List Char → List Char → Bool
  | [], _ => true
  | _ :: _, [] => false
  | a :: as, b :: bs =>
      decide (a.toNat < b.toNat) || (decide (a.toNat = b.toNat) && lexLe as bs)

/-- Python string order as a Prop relation on String. -/
def strLe (a b : String) : Prop :=
  lexLe a.data b.data = true

/-- Strict version of the Python string order. -/
def strLt (a b : String) : Prop :=
  strLe a b ∧ a ≠ b

instance : DecidableRel strLe := fun a b => by
  unfold strLe; infer_instance

/-- Value of a run of ASCII digits. -/
def digitsVal (l : List Char) : Nat :=
  l.foldl (fun a c => 10 * a + (c.toNat - 48)) 0

/-- ASCII digit test. -/
def isDigitChar (c : Char) : Bool :=
  decide (48 ≤ c.toNat) && decide (c.toNat ≤ 57)

/-- Python int() applied to a string: optional sign followed by a
nonempty digit run (the fragment relevant to this dataset). -/
def pyIntParse (s : String) : Option Int :=
  match s.data with
  | [] => none
  | '+' :: rest =>
      if rest ≠ [] ∧ rest.all isDigitChar then some (Int.ofNat (digitsVal rest)) else none
  | '-' :: rest =>
      if rest ≠ [] ∧ rest.all isDigitChar then some (-(Int.ofNat (digitsVal rest))) else none
  | l =>
      if l.all isDigitChar then some (Int.ofNat (digitsVal l)) else none

/-- First maximal digit run in a string (re.search of a digit-run
pattern in the source). -/
def firstDigitRun (s : String) : Option (List Char) :=
  let rest := s.data.dropWhile (fun c => !isDigitChar c)
  if rest = [] then none else some (rest.takeWhile isDigitChar)

/-- to_int_or_none from the source: try int() on the stripped cell; on
failure take the first digit run anywhere in the original string; on
total failure return none.  Total by construction, mirroring the
try/except that never raises. -/
def to_int_or_none (x : String) : Option Int :=
  match pyIntParse (pyStrip x) with
  | some n => some n
  | none =>
      match firstDigitRun x with
      | some run => some (Int.ofNat (digitsVal run))
      | none => none

/-- One record of the dataset; only the columns the verified logic
touches.  The year field carries the pandas to_numeric parse result of
the year cell (none when the cell is unparsable). -/
structure Record where
  title : String
  author : String
  file_name : String
  keywordCols : List String
  year : Option Int
  vol : String
  issue : String
  target : String
  rtype : String
deriving DecidableEq

/-- haystack from the source: join title, author cell, file name and
the space-joined keyword columns with a space-newline-space separator,
then apply norm_key. -/
def haystack (r : Record) : String :=
  norm_key (String.intercalate " \n " [r.title, r.author, r.file_name,
    String.intercalate " " r.keywordCols])

/-- Keyword match mode of the radio widget. -/
inductive KwMode where
  | AND : KwMode
  | OR : KwMode
deriving DecidableEq

/-- hit_kw from apply_filters: in AND mode every token must occur in
the haystack, in OR mode at least one. -/
def hit_kw (toks : List String) (mode : KwMode) (r : Record) : Bool :=
  match mode with
  | KwMode.AND => toks.all (fun t => hasSub t.data (haystack r).data)
  | KwMode.OR => toks.any (fun t => hasSub t.data (haystack r).data)

/-- Year clause of apply_filters: pandas keeps a row when the parsed
year is in range or the parse is NaN. -/
def yearClause (yFrom yTo : Int) (r : Record) : Bool :=
  match r.year with
  | some y => decide (yFrom ≤ y) && decide (y ≤ yTo)
  | none => true

/-- Volume clause of apply_filters: map the cell through
to_int_or_none and test membership in the selected set; a missing value
is never a member. -/
def volClause (sel : List Int) (r : Record) : Bool :=
  match to_int_or_none r.vol with
  | some n => decide (n ∈ sel)
  | none => false

/-- Issue clause of apply_filters, same shape as the volume clause. -/
def issueClause (sel : List Int) (r : Record) : Bool :=
  match to_int_or_none r.issue with
  | some n => decide (n ∈ sel)
  | none => false

/-- Author clause of apply_filters: some strict-split author name of
the row has its normalized key in the normalized selected set. -/
def authorClause (sel : List String) (r : Record) : Bool :=
  (split_authors r.author).any (fun x => decide (norm_key x ∈ sel.map norm_key))

/-- Target clause of apply_filters: some selected token, normalized, is
a substring of the normalized cell. -/
def targetClause (sel : List String) (r : Record) : Bool :=
  sel.any (fun t => hasSub (norm_key t).data (norm_key r.target).data)

/-- Research-type clause of apply_filters, same shape as the target
clause. -/
def typeClause (sel : List String) (r : Record) : Bool :=
  sel.any (fun t => hasSub (norm_key t).data (norm_key r.rtype).data)

/-- Keyword stage of apply_filters: with no tokens the frame is
returned unchanged, otherwise rows are kept by hit_kw. -/
def keywordFilter (q : String) (mode : KwMode) (rs : List Record) : List Record :=
  let toks := tokens_from_query q
  if toks = [] then rs else rs.filter (hit_kw toks mode)

/-- Structured query of the filter pipeline. -/
structure Query where
  yFrom : Int
  yTo : Int
  vols : List Int
  issues : List Int
  authors : List String
  targets : List String
  rtypes : List String
  kwQuery : String
  kwMode : KwMode

/-- apply_filters from the source: successive boolean-mask filters, the
multiselect clauses active only when their selection is nonempty, the
keyword clause last. -/
def apply_filters (q : Query) (rs : List Record) : List Record :=
  let r1 := rs.filter (yearClause q.yFrom q.yTo)
  let r2 := if q.vols = [] then r1 else r1.filter (volClause q.vols)
  let r3 := if q.issues = [] then r2 else r2.filter (issueClause q.issues)
  let r4 := if q.authors = [] then r3 else r3.filter (authorClause q.authors)
  let r5 := if q.targets = [] then r4 else r4.filter (targetClause q.targets)
  let r6 := if q.rtypes = [] then r5 else r5.filter (typeClause q.rtypes)
  keywordFilter q.kwQuery q.kwMode r6

/-- Favorite toggle commit from the apply_main and apply_fav blocks:
subtract the displayed RowId set, then add back the checked subset. -/
def commit_favs (favorited displayed checked : Finset String) : Finset String :=
  (favorited \ displayed) ∪ checked

/-- The session tag dictionary: RowId to stored tag set, absent entries
modeled as none. -/
def TagMap : Type :=
  String → Option (Finset String)

/-- Session favorites state: the favorited RowId set and the tag
dictionary. -/
structure FavState where
  favs : Finset String
  tags : TagMap

/-- The favorite toggle commit lifted to the whole session state; the
source assigns only st.session_state.favs. -/
def commit_favs_state (st : FavState) (displayed checked : Finset String) : FavState :=
  { favs := (st.favs \ displayed) ∪ checked, tags := st.tags }

/-- The clear-all button handler: assigns the empty set to the
favorites and touches nothing else. -/
def clear_all (st : FavState) : FavState :=
  { favs := ∅, tags := st.tags }

/-- parse_tags from the source: split the edited text on the query
separator class, strip each piece, drop empties, collect into a set. -/
def parse_tags (s : String) : Finset String :=
  (((splitOnPred isQuerySep s.data).map
    (fun l => pyStrip (⟨l⟩ : String))).filter (fun t => decide (t ≠ ""))).toFinset

/-- One iteration of the tag update loop: a nonempty parsed set
replaces the stored entry, an empty parse deletes the entry. -/
def tagCommitRow (m : TagMap) (rid : String) (text : String) : TagMap :=
  let ts := parse_tags text
  if ts = ∅ then (fun r => if r = rid then none else m r)
  else (fun r => if r = rid then some ts else m r)

/-- The whole tag update loop over the edited favorites rows. -/
def tagCommitAll (m : TagMap) (rows : List (String × String)) : TagMap :=
  rows.foldl (fun acc p => tagCommitRow acc p.1 p.2) m

/-- Dictionary lookup in an association list keyed by strings. -/
def lookupKey (k : String) : List (String × String) → Option String
  | [] => none
  | (k₂, v) :: rest => if k = k₂ then some v else lookupKey k rest

/-- One step of the rep dictionary construction in
build_author_candidates: insert the surface form under its normalized
key only when the key is nonempty and not yet present. -/
def repStep (rep : List (String × String)) (n : String) : List (String × String) :=
  if norm_key n ≠ "" ∧ lookupKey (norm_key n) rep = none
  then rep ++ [(norm_key n, n)] else rep

/-- The rep dictionary of build_author_candidates, built over the
stream of strict-split author names in dataset row order. -/
def build_rep (names : List String) : List (String × String) :=
  names.foldl repStep []

/-- build_author_candidates from the source: build the rep dictionary
over all author cells in row order, then emit the stored surface forms
in sorted key order. -/
def build_author_candidates (cells : List String) : List String :=
  let rep := build_rep (cells.flatMap split_authors)
  (List.insertionSort strLe (rep.map Prod.fst)).map
    (fun k => (lookupKey k rep).getD "")

/-- Python dict.fromkeys based deduplication keeping first occurrences
in order, as used by order_by_template. -/
def dict_fromkeys (l : List String) : List String :=
  l.foldl (fun acc v => if v ∈ acc then acc else acc ++ [v]) []

/-- First-occurrence deduplication in its standard recursive form, used
to state the specification of order_by_template. -/
def dedupFirst : List String → List String
  | [] => []
  | v :: rest => v :: (dedupFirst rest).filter (fun w => decide (w ≠ v))

/-- Test that a category value carries the catch-all marker (the
substring test of the source). -/
def hasOther (v : String) : Bool :=
  hasSub "その他".data v.data

/-- order_by_template from the source: deduplicate the observed values,
then template order for known non-catch-all values, alphabetical order
for unknown non-catch-all values, catch-all values last (template ones
first, then unknown ones). -/
def order_by_template (values template : List String) : List String :=
  let vs := dict_fromkeys values
  let head := template.filter (fun v => decide (v ∈ vs) && !hasOther v)
  let mid := List.insertionSort strLe
    (vs.filter (fun v => decide (v ∉ template) && !hasOther v))
  let tail := template.filter (fun v => decide (v ∈ vs) && hasOther v) ++
    vs.filter (fun v => hasOther v && decide (v ∉ template))
  head ++ mid ++ tail

/-- Roman letter test for the leading character of a reading (the
regex class A-Za-z in the source). -/
def isRomanChar (c : Char) : Bool :=
  (decide (65 ≤ c.toNat) && decide (c.toNat ≤ 90)) ||
  (decide (97 ≤ c.toNat) && decide (c.toNat ≤ 122))

/-- Katakana block test for the leading character of a reading (the
regex class U+30A0 to U+30FF in the source). -/
def isKatakanaChar (c : Char) : Bool :=
  decide (0x30A0 ≤ c.toNat) && decide (c.toNat ≤ 0x30FF)

/-- The syllabary order string of the source. -/
def AIUEO_ORDER : String :=
  "あいうえおかきくけこさしすせそたちつてとなにぬねのはひふへほまみむめもやゆよらりるれろわをん"

/-- sort_tuple from the source: empty readings go to group 3, Roman
heads to group 2 keyed by the lowercased head, Katakana heads to group
1 keyed by the full reading, and everything else to group 0 with the
syllabary index when the head is listed and the sentinel 998 when it is
not, keyed by the full reading. -/
def sort_tuple (reading : String) : Nat × Nat × String :=
  match reading.data with
  | [] => (3, 999, "")
  | ch :: _ =>
      if isRomanChar ch then (2, 999, (⟨[lowerChar ch]⟩ : String))
      else if isKatakanaChar ch then (1, 999, reading)
      else
        match AIUEO_ORDER.data.findIdx? (fun c => c = ch) with
        | some i => (0, i, reading)
        | none => (0, 998, reading)

/-- Lexicographic order on the sort tuples, the order sort_values uses
on the three helper columns. -/
def tupleLe (a b : Nat × Nat × String) : Prop :=
  a.1 < b.1 ∨ (a.1 = b.1 ∧ (a.2.1 < b.2.1 ∨ (a.2.1 = b.2.1 ∧ strLe a.2.2 b.2.2)))

instance : DecidableRel tupleLe := fun a b => by
  unfold tupleLe; infer_instance

/-- Reading comparison induced by sort_tuple. -/
def readingLe (a b : String) : Prop :=
  tupleLe (sort_tuple a) (sort_tuple b)

instance : DecidableRel readingLe := fun a b => by
  unfold readingLe; infer_instance

/-- The stable sort of the candidate readings by their sort tuples. -/
def sortReadings (l : List String) : List String :=
  List.insertionSort readingLe l

/-! Helper lemmas about the substring test. -/

theorem begWith_iff (t l : List Char) : begWith t l = true ↔ ∃ s, l = t ++ s := by
  induction t generalizing l with
  | nil => simp [begWith]
  | cons a t ih =>
      cases l with
      | nil => simp [begWith]
      | cons b l =>
          simp only [begWith, Bool.and_eq_true, decide_eq_true_eq, ih,
            List.cons_append, List.cons.injEq]
          constructor
          · rintro ⟨rfl, s, rfl⟩; exact ⟨s, rfl, rfl⟩
          · rintro ⟨s, rfl, rfl⟩; exact ⟨rfl, s, rfl⟩

theorem hasSub_iff (t l : List Char) : hasSub t l = true ↔ ∃ p s, l = p ++ t ++ s := by
  induction l with
  | nil =>
      simp only [hasSub, begWith_iff]
      constructor
      · rintro ⟨s, h⟩; exact ⟨[], s, h⟩
      · rintro ⟨p, s, h⟩
        refine ⟨s, ?_⟩
        rcases List.append_eq_nil.mp (List.append_eq_nil.mp h.symm).1 with ⟨rfl, rfl⟩
        simpa using h
  | cons b l ih =>
      simp only [hasSub, Bool.or_eq_true, begWith_iff, ih]
      constructor
      · rintro (⟨s, h⟩ | ⟨p, s, h⟩)
        · exact ⟨[], s, by simpa using h⟩
        · exact ⟨b :: p, s, by simp [h]⟩
      · rintro ⟨p, s, h⟩
        cases p with
        | nil => left; exact ⟨s, by simpa using h⟩
        | cons x p =>
            right
            simp only [List.cons_append, List.cons.injEq] at h
            exact ⟨p, s, h.2⟩

/-! C1: the favorite toggle commit. -/

/-- C1: committing the favorite toggle over a displayed RowId set D and
a user-checked subset C of D yields exactly (F minus D) union C, and
every RowId outside D keeps its previous membership. -/
theorem commit_favs_spec (F D C : Finset String) (hC : C ⊆ D) :
    (∀ rid, rid ∈ commit_favs F D C ↔ (rid ∈ F ∧ rid ∉ D) ∨ rid ∈ C) ∧
    (∀ rid, rid ∉ D → (rid ∈ commit_favs F D C ↔ rid ∈ F)) := by
  constructor
  · intro rid
    simp [commit_favs, Finset.mem_union, Finset.mem_sdiff]
  · intro rid hD
    have hCnot : rid ∉ C := fun hc => hD (hC hc)
    simp [commit_favs, Finset.mem_union, Finset.mem_sdiff, hD, hCnot]

/-- Witness for C1, on the example of the specification: favorited
A,B,C with displayed view B,C,D and checked C,D gives A,C,D, and the
undisplayed RowId A is untouched. -/
theorem commit_favs_witness :
    ((("A" : String) ∈ commit_favs {"A", "B", "C"} {"B", "C", "D"} {"C", "D"}) ↔
      ("A" : String) ∈ ({"A", "B", "C"} : Finset String)) ∧
    commit_favs {"A", "B", "C"} {"B", "C", "D"} {"C", "D"} = {"A", "C", "D"} :=
  ⟨(commit_favs_spec {"A", "B", "C"} {"B", "C", "D"} {"C", "D"} (by decide)).2 "A" (by decide),
    by decide⟩

/-! C2: the year range clause. -/

/-- C2: a record whose year cell parses to y passes the year clause
exactly when yFrom is at most y and y is at most yTo, and a record with
an unparsable year cell always passes the year clause. -/
theorem year_clause_spec (r : Record) (yFrom yTo : Int) :
    (∀ y : Int, r.year = some y → (yearClause yFrom yTo r = true ↔ yFrom ≤ y ∧ y ≤ yTo)) ∧
    (r.year = none → yearClause yFrom yTo r = true) := by
  constructor
  · intro y hy
    simp [yearClause, hy]
  · intro hy
    simp [yearClause, hy]

/-- Witness for C2: a record with year 1999 passes the range 1990 to
2000, and a record with an unparsable year passes the same range. -/
theorem year_clause_witness :
    yearClause 1990 2000 ⟨"", "", "", [], some 1999, "", "", "", ""⟩ = true ∧
    yearClause 1990 2000 ⟨"", "", "", [], none, "", "", "", ""⟩ = true :=
  ⟨((year_clause_spec ⟨"", "", "", [], some 1999, "", "", "", ""⟩ 1990 2000).1 1999 rfl).mpr
      (by decide),
    (year_clause_spec ⟨"", "", "", [], none, "", "", "", ""⟩ 1990 2000).2 rfl⟩

/-! C5: tags survive unfavoriting. -/

/-- C5: the favorite toggle commit and the clear-all operation leave
the tag dictionary untouched, clear-all empties the favorited set, and
a RowId that is displayed, unchecked and previously favorited loses its
favorite mark while keeping its tag entry. -/
theorem tags_survive_spec (st : FavState) (D C : Finset String) :
    (commit_favs_state st D C).tags = st.tags ∧
    (clear_all st).tags = st.tags ∧
    (clear_all st).favs = ∅ ∧
    (∀ rid, rid ∈ D → rid ∉ C →
      rid ∉ (commit_favs_state st D C).favs ∧
      (commit_favs_state st D C).tags rid = st.tags rid) := by
  refine ⟨rfl, rfl, rfl, ?_⟩
  intro rid hD hC
  constructor
  · simp [commit_favs_state, Finset.mem_union, Finset.mem_sdiff, hD, hC]
  · rfl

/-- Witness for C5: unfavoriting the RowId B keeps its stored tag
set. -/
theorem tags_survive_witness :
    ("B" : String) ∉
      (commit_favs_state
        ⟨{"A", "B"}, fun r => if r = "B" then some {"清酒"} else none⟩ {"B"} ∅).favs ∧
    (commit_favs_state
      ⟨{"A", "B"}, fun r => if r = "B" then some {"清酒"} else none⟩ {"B"} ∅).tags "B" =
      (fun r => if r = "B" then some ({"清酒"} : Finset String) else none) "B" :=
  tags_survive_spec ⟨{"A", "B"}, fun r => if r = "B" then some {"清酒"} else none⟩ {"B"} ∅
    |>.2.2.2 "B" (by decide) (by decide)

/-! C8: best-effort volume and issue extraction. -/

/-- C8: the extractor returns the integer parse of the stripped cell
when it succeeds, otherwise the value of the first digit run anywhere
in the string, otherwise none; when the volume filter is active a
record with no extracted value is excluded and a record with value n
passes exactly when n is selected.  The extractor is a total function,
so it never raises. -/
theorem vol_issue_extract_spec (r : Record) (sel : List Int) :
    (∀ n, pyIntParse (pyStrip r.vol) = some n → to_int_or_none r.vol = some n) ∧
    (pyIntParse (pyStrip r.vol) = none →
      to_int_or_none r.vol = (firstDigitRun r.vol).map (fun run => Int.ofNat (digitsVal run))) ∧
    (to_int_or_none r.vol = none → volClause sel r = false) ∧
    (∀ n, to_int_or_none r.vol = some n → (volClause sel r = true ↔ n ∈ sel)) ∧
    (to_int_or_none r.issue = none → issueClause sel r = false) ∧
    (∀ n, to_int_or_none r.issue = some n → (issueClause sel r = true ↔ n ∈ sel)) := by
  refine ⟨?_, ?_, ?_, ?_, ?_, ?_⟩
  · intro n h
    simp [to_int_or_none, h]
  · intro h
    simp only [to_int_or_none, h]
    cases firstDigitRun r.vol <;> rfl
  · intro h
    simp [volClause, h]
  · intro n h
    simp [volClause, h]
  · intro h
    simp [issueClause, h]
  · intro n h
    simp [issueClause, h]

/-- Witness for C8: an unparsable cell is excluded by an active volume
filter, a cell carrying the digit run 7 amid other characters passes
exactly the selections containing 7. -/
theorem vol_issue_extract_witness :
    volClause [1, 2] ⟨"", "", "", [], none, "不明", "", "", ""⟩ = false ∧
    (volClause [7] ⟨"", "", "", [], none, "vol.7号", "", "", ""⟩ = true ↔ 7 ∈ [(7 : Int)]) :=
  ⟨(vol_issue_extract_spec ⟨"", "", "", [], none, "不明", "", "", ""⟩ [1, 2]).2.2.1 (by decide),
    (vol_issue_extract_spec ⟨"", "", "", [], none, "vol.7号", "", "", ""⟩ [7]).2.2.2.1 7 (by decide)⟩

/-! C3: the keyword clause. -/

/-- C3: with no tokens the keyword stage leaves the record set
unchanged; with a nonempty token list, AND mode keeps exactly the
records whose haystack contains every token as a substring and OR mode
keeps exactly those whose haystack contains at least one. -/
theorem keyword_clause_spec (q : String) (mode : KwMode) (rs : List Record) :
    (tokens_from_query q = [] → keywordFilter q mode rs = rs) ∧
    (tokens_from_query q ≠ [] → mode = KwMode.AND → ∀ r : Record,
      (r ∈ keywordFilter q mode rs ↔ r ∈ rs ∧
        ∀ t ∈ tokens_from_query q, ∃ p s, (haystack r).data = p ++ t.data ++ s)) ∧
    (tokens_from_query q ≠ [] → mode = KwMode.OR → ∀ r : Record,
      (r ∈ keywordFilter q mode rs ↔ r ∈ rs ∧
        ∃ t ∈ tokens_from_query q, ∃ p s, (haystack r).data = p ++ t.data ++ s)) := by
  refine ⟨?_, ?_, ?_⟩
  · intro h
    simp [keywordFilter, h]
  · rintro h rfl r
    simp only [keywordFilter, if_neg h, List.mem_filter, hit_kw, List.all_eq_true]
    constructor
    · rintro ⟨hr, hall⟩
      exact ⟨hr, fun t ht => (hasSub_iff t.data (haystack r).data).mp (hall t ht)⟩
    · rintro ⟨hr, hall⟩
      exact ⟨hr, fun t ht => (hasSub_iff t.data (haystack r).data).mpr (hall t ht)⟩
  · rintro h rfl r
    simp only [keywordFilter, if_neg h, List.mem_filter, hit_kw, List.any_eq_true]
    constructor
    · rintro ⟨hr, t, ht, hsub⟩
      exact ⟨hr, t, ht, (hasSub_iff t.data (haystack r).data).mp hsub⟩
    · rintro ⟨hr, t, ht, hsub⟩
      exact ⟨hr, t, ht, (hasSub_iff t.data (haystack r).data).mpr hsub⟩

/-- Witness for C3, on the example of the specification: a record whose
haystack holds 清酒 and 酵母, queried for 清酒 and 乳酸菌, is kept in OR
mode and dropped in AND mode. -/
theorem keyword_clause_witness :
    ((⟨"清酒", "", "", ["酵母"], none, "", "", "", ""⟩ : Record) ∈
      keywordFilter "清酒 乳酸菌" KwMode.OR
        [⟨"清酒", "", "", ["酵母"], none, "", "", "", ""⟩]) ∧
    ¬((⟨"清酒", "", "", ["酵母"], none, "", "", "", ""⟩ : Record) ∈
      keywordFilter "清酒 乳酸菌" KwMode.AND
        [⟨"清酒", "", "", ["酵母"], none, "", "", "", ""⟩]) := by
  constructor
  · exact ((keyword_clause_spec "清酒 乳酸菌" KwMode.OR
      [⟨"清酒", "", "", ["酵母"], none, "", "", "", ""⟩]).2.2 (by decide) rfl
        ⟨"清酒", "", "", ["酵母"], none, "", "", "", ""⟩).mpr
      ⟨by simp, "清酒", by decide, [], " 酵母".data, by decide⟩
  · intro hmem
    have h := ((keyword_clause_spec "清酒 乳酸菌" KwMode.AND
      [⟨"清酒", "", "", ["酵母"], none, "", "", "", ""⟩]).2.1 (by decide) rfl
        ⟨"清酒", "", "", ["酵母"], none, "", "", "", ""⟩).mp hmem
    have h2 := h.2 "乳酸菌" (by decide)
    rcases h2 with ⟨p, s, hps⟩
    have : hasSub "乳酸菌".data
        (haystack ⟨"清酒", "", "", ["酵母"], none, "", "", "", ""⟩).data = true :=
      (hasSub_iff _ _).mpr ⟨p, s, hps⟩
    exact absurd this (by decide)

/-! C4: the tag text commit. -/

theorem tagCommitAll_notmem (m : TagMap) (rows : List (String × String)) (rid : String)
    (h : rid ∉ rows.map Prod.fst) : tagCommitAll m rows rid = m rid := by
  induction rows generalizing m with
  | nil => rfl
  | cons p rest ih =>
      simp only [List.map_cons, List.mem_cons, not_or] at h
      have step : tagCommitRow m p.1 p.2 rid = m rid := by
        simp only [tagCommitRow]
        split <;> simp [if_neg h.1]
      calc tagCommitAll m (p :: rest) rid
          = tagCommitAll (tagCommitRow m p.1 p.2) rest rid := rfl
        _ = tagCommitRow m p.1 p.2 rid := ih _ h.2
        _ = m rid := step

/-- C4: committing the edited favorites rows stores the parsed tag set
of a row when it is nonempty and deletes the entry of the row when the
parse is empty, for any row of the edited view (rows keyed by distinct
RowIds). -/
theorem tag_commit_spec (m : TagMap) (rows : List (String × String)) (rid text : String)
    (hnd : (rows.map Prod.fst).Nodup) (hmem : (rid, text) ∈ rows) :
    (parse_tags text ≠ ∅ → tagCommitAll m rows rid = some (parse_tags text)) ∧
    (parse_tags text = ∅ → tagCommitAll m rows rid = none) := by
  induction rows generalizing m with
  | nil => cases hmem
  | cons p rest ih =>
      simp only [List.map_cons, List.nodup_cons] at hnd
      rcases List.mem_cons.mp hmem with heq | hrest
      · subst heq
        have hnot : rid ∉ rest.map Prod.fst := hnd.1
        have hrow : tagCommitAll m ((rid, text) :: rest) rid =
            tagCommitRow m rid text rid :=
          tagCommitAll_notmem (tagCommitRow m rid text) rest rid hnot
        constructor
        · intro hne
          rw [hrow]
          simp [tagCommitRow, hne]
        · intro hemp
          rw [hrow]
          simp [tagCommitRow, hemp]
      · exact ih (tagCommitRow m p.1 p.2) hnd.2 hrest

/-- Witness for C4: starting from a stored entry holding 清酒 and
乳酸菌, committing the edited text for RowId R as empty deletes the
entry, and committing the duplicated text 清酒 清酒 stores exactly the
one-element set 清酒. -/
theorem tag_commit_witness :
    tagCommitAll
      (fun r => if r = "R" then some ({"清酒", "乳酸菌"} : Finset String) else none)
      [("R", "")] "R" = none ∧
    tagCommitAll
      (fun r => if r = "R" then some ({"清酒", "乳酸菌"} : Finset String) else none)
      [("R", "清酒 清酒")] "R" = some {"清酒"} :=
  ⟨(tag_commit_spec
      (fun r => if r = "R" then some ({"清酒", "乳酸菌"} : Finset String) else none)
      [("R", "")] "R" "" (by decide) (by decide)).2 (by decide),
    ((tag_commit_spec
      (fun r => if r = "R" then some ({"清酒", "乳酸菌"} : Finset String) else none)
      [("R", "清酒 清酒")] "R" "清酒 清酒" (by decide) (by decide)).1 (by decide)).trans
      (by decide)⟩

/-! Order lemmas for the Python string order. -/

theorem lexLe_total : ∀ a b : List Char, lexLe a b = true ∨ lexLe b a = true := by
  intro a
  induction a with
  | nil => intro b; left; rfl
  | cons x xs ih =>
      intro b
      cases b with
      | nil => right; rfl
      | cons y ys =>
          simp only [lexLe, Bool.or_eq_true, Bool.and_eq_true, decide_eq_true_eq]
          rcases Nat.lt_trichotomy x.toNat y.toNat with h | h | h
          · left; left; exact h
          · rcases ih ys with h2 | h2
            · left; right; exact ⟨h, h2⟩
            · right; right; exact ⟨h.symm, h2⟩
          · right; left; exact h

theorem lexLe_trans : ∀ a b c : List Char,
    lexLe a b = true → lexLe b c = true → lexLe a c = true := by
  intro a
  induction a with
  | nil => intro b c _ _; rfl
  | cons x xs ih =>
      intro b c hab hbc
      cases b with
      | nil => simp [lexLe] at hab
      | cons y ys =>
          cases c with
          | nil => simp [lexLe] at hbc
          | cons z zs =>
              simp only [lexLe, Bool.or_eq_true, Bool.and_eq_true,
                decide_eq_true_eq] at *
              rcases hab with h1 | ⟨h1e, h1r⟩
              · rcases hbc with h2 | ⟨h2e, h2r⟩
                · left; omega
                · left; omega
              · rcases hbc with h2 | ⟨h2e, h2r⟩
                · left; omega
                · right; exact ⟨by omega, ih ys zs h1r h2r⟩

instance : IsTotal String strLe :=
  ⟨fun a b => lexLe_total a.data b.data⟩

instance : IsTrans String strLe :=
  ⟨fun a b c => lexLe_trans a.data b.data c.data⟩

/-! C7: ordering by a curated template. -/

theorem mem_dedupFirst (a : String) (l : List String) : a ∈ dedupFirst l ↔ a ∈ l := by
  induction l with
  | nil => simp [dedupFirst]
  | cons v rest ih =>
      by_cases hv : a = v
      · subst hv; simp [dedupFirst]
      · simp [dedupFirst, List.mem_filter, ih, hv]

theorem filter_dedupFirst (q : String → Bool) (l : List String) :
    dedupFirst (l.filter q) = (dedupFirst l).filter q := by
  induction l with
  | nil => rfl
  | cons v rest ih =>
      by_cases hv : q v = true
      · rw [List.filter_cons_of_pos hv]
        show v :: (dedupFirst (rest.filter q)).filter (fun w => decide (w ≠ v)) = _
        rw [ih]
        show _ = (v :: (dedupFirst rest).filter (fun w => decide (w ≠ v))).filter q
        rw [List.filter_cons_of_pos hv, List.filter_filter, List.filter_filter]
        congr 1
        apply List.filter_congr
        intro a _
        exact Bool.and_comm _ _
      · rw [List.filter_cons_of_neg hv]
        show dedupFirst (rest.filter q) = _
        rw [ih]
        show _ = (v :: (dedupFirst rest).filter (fun w => decide (w ≠ v))).filter q
        rw [List.filter_cons_of_neg hv, List.filter_filter]
        symm
        apply List.filter_congr
        intro a _
        cases hqa : q a with
        | false => simp
        | true =>
            have hne : a ≠ v := fun h => by rw [h] at hqa; exact hv hqa
            simp [hne]

theorem dict_fromkeys_go (l : List String) : ∀ acc : List String,
    l.foldl (fun acc v => if v ∈ acc then acc else acc ++ [v]) acc =
      acc ++ dedupFirst (l.filter (fun v => decide (v ∉ acc))) := by
  induction l with
  | nil => intro acc; simp [dedupFirst]
  | cons v rest ih =>
      intro acc
      by_cases hv : v ∈ acc
      · rw [List.foldl_cons, if_pos hv, ih acc,
          List.filter_cons_of_neg (by simp [hv])]
      · rw [List.foldl_cons, if_neg hv, ih (acc ++ [v]),
          List.filter_cons_of_pos (by simp [hv])]
        have hpred : rest.filter (fun w => decide (w ∉ acc ++ [v])) =
            (rest.filter (fun w => decide (w ∉ acc))).filter
              (fun w => decide (w ≠ v)) := by
          rw [List.filter_filter]
          apply List.filter_congr
          intro a _
          simp only [List.mem_append, List.mem_singleton, decide_not]
          cases ha : decide (a ∈ acc) <;> cases hav : decide (a = v) <;>
            simp_all
        rw [hpred, filter_dedupFirst]
        show acc ++ [v] ++ _ = acc ++ dedupFirst (v :: rest.filter (fun w => decide (w ∉ acc)))
        rw [List.append_assoc]
        rfl

theorem dict_fromkeys_eq (l : List String) : dict_fromkeys l = dedupFirst l := by
  have h := dict_fromkeys_go l []
  have hf : l.filter (fun v => decide (v ∉ ([] : List String))) = l :=
    List.filter_eq_self.mpr (fun a _ => by simp)
  rw [hf] at h
  simpa [dict_fromkeys] using h

/-- C7: the template orderer returns exactly the template entries
present in the deduplicated observed values and not marked catch-all,
in template order; then the observed values absent from the template
and not marked catch-all, alphabetically; then the template catch-all
entries present in the observed values followed by the observed
catch-all values outside the template.  The middle block is sorted and
is a permutation of the unknown non-catch-all values. -/
theorem order_by_template_spec (values template : List String) :
    order_by_template values template =
      template.filter (fun v => decide (v ∈ dedupFirst values) && !hasOther v) ++
      List.insertionSort strLe
        ((dedupFirst values).filter (fun v => decide (v ∉ template) && !hasOther v)) ++
      (template.filter (fun v => decide (v ∈ dedupFirst values) && hasOther v) ++
        (dedupFirst values).filter (fun v => hasOther v && decide (v ∉ template))) ∧
    List.Sorted strLe (List.insertionSort strLe
      ((dedupFirst values).filter (fun v => decide (v ∉ template) && !hasOther v))) ∧
    List.Perm
      (List.insertionSort strLe
        ((dedupFirst values).filter (fun v => decide (v ∉ template) && !hasOther v)))
      ((dedupFirst values).filter (fun v => decide (v ∉ template) && !hasOther v)) :=
  ⟨by simp only [order_by_template, dict_fromkeys_eq],
    List.sorted_insertionSort _ _,
    List.perm_insertionSort _ _⟩

/-! C10: the reading sort. -/

theorem tupleLe_total (a b : Nat × Nat × String) : tupleLe a b ∨ tupleLe b a := by
  unfold tupleLe
  rcases Nat.lt_trichotomy a.1 b.1 with h | h | h
  · left; left; exact h
  · rcases Nat.lt_trichotomy a.2.1 b.2.1 with h2 | h2 | h2
    · left; right; exact ⟨h, Or.inl h2⟩
    · rcases lexLe_total a.2.2.data b.2.2.data with h3 | h3
      · left; right; exact ⟨h, Or.inr ⟨h2, h3⟩⟩
      · right; right; exact ⟨h.symm, Or.inr ⟨h2.symm, h3⟩⟩
    · right; right; exact ⟨h.symm, Or.inl h2⟩
  · right; left; exact h

theorem tupleLe_trans (a b c : Nat × Nat × String) :
    tupleLe a b → tupleLe b c → tupleLe a c := by
  unfold tupleLe
  rintro (h1 | ⟨h1e, h1 | ⟨h1i, h1s⟩⟩) (h2 | ⟨h2e, h2 | ⟨h2i, h2s⟩⟩)
  · left; omega
  · left; omega
  · left; omega
  · left; omega
  · right; exact ⟨by omega, Or.inl (by omega)⟩
  · right; exact ⟨by omega, Or.inl (by omega)⟩
  · left; omega
  · right; exact ⟨by omega, Or.inl (by omega)⟩
  · right; exact ⟨by omega, Or.inr ⟨by omega, lexLe_trans _ _ _ h1s h2s⟩⟩

instance : IsTotal String readingLe :=
  ⟨fun a b => tupleLe_total (sort_tuple a) (sort_tuple b)⟩

instance : IsTrans String readingLe :=
  ⟨fun a b c => tupleLe_trans (sort_tuple a) (sort_tuple b) (sort_tuple c)⟩

/-- Counterexample to C10 as stated: the reading 漢, whose leading
character is neither in the syllabary string nor Katakana nor Roman, is
sorted into the first group with sentinel key 998 and therefore comes
before the Katakana-headed reading ア, not last. -/
theorem reading_sort_cex :
    sortReadings ["ア", "漢"] = ["漢", "ア"] ∧
    sort_tuple "漢" = (0, 998, "漢") ∧
    sort_tuple "ア" = (1, 999, "ア") := by
  refine ⟨by decide, by decide, by decide⟩

/-- C10 (amended): the sort is a permutation of the input, it is
ordered by the lexicographic tuple order on sort_tuple, a smaller group
number always comes first, and the groups are: group 0 holds every
nonempty reading whose head is neither Roman nor Katakana (syllabary
heads keyed by their syllabary index, other heads keyed by the sentinel
998, ties broken by the full reading), group 1 the Katakana heads keyed
by the full reading, group 2 the Roman heads keyed by the case-folded
head character, and group 3 only the empty reading. -/
theorem reading_sort_spec (l : List String) :
    List.Perm (sortReadings l) l ∧
    List.Pairwise readingLe (sortReadings l) ∧
    (∀ a b : String, (sort_tuple a).1 < (sort_tuple b).1 → readingLe a b) ∧
    (∀ r : String, ∀ ch rest, r.data = ch :: rest →
      (isRomanChar ch = true → sort_tuple r = (2, 999, (⟨[lowerChar ch]⟩ : String))) ∧
      (isRomanChar ch = false → isKatakanaChar ch = true → sort_tuple r = (1, 999, r)) ∧
      (∀ i, isRomanChar ch = false → isKatakanaChar ch = false →
        AIUEO_ORDER.data.findIdx? (fun c => c = ch) = some i → sort_tuple r = (0, i, r)) ∧
      (isRomanChar ch = false → isKatakanaChar ch = false →
        AIUEO_ORDER.data.findIdx? (fun c => c = ch) = none → sort_tuple r = (0, 998, r))) ∧
    sort_tuple "" = (3, 999, "") := by
  refine ⟨List.perm_insertionSort _ _, List.sorted_insertionSort _ _, ?_, ?_, by decide⟩
  · intro a b h
    exact Or.inl h
  · intro r ch rest hr
    refine ⟨?_, ?_, ?_, ?_⟩
    · intro hrom
      simp [sort_tuple, hr, hrom]
    · intro hrom hkata
      simp [sort_tuple, hr, hrom, hkata]
    · intro i hrom hkata hidx
      simp [sort_tuple, hr, hrom, hkata, hidx]
    · intro hrom hkata hidx
      simp [sort_tuple, hr, hrom, hkata, hidx]

/-- Witness for C10: the Katakana-headed reading ア lands in group 1
keyed by the full reading, by the group characterization applied at the
concrete head. -/
theorem reading_sort_witness : sort_tuple "ア" = (1, 999, "ア") :=
  ((reading_sort_spec []).2.2.2.1 "ア" 'ア' [] rfl).2.1 (by decide) (by decide)

/-! C6: author candidate deduplication. -/

theorem lookupKey_append_of_none {k : String} {l₁ : List (String × String)}
    (l₂ : List (String × String)) (h : lookupKey k l₁ = none) :
    lookupKey k (l₁ ++ l₂) = lookupKey k l₂ := by
  induction l₁ with
  | nil => rfl
  | cons p rest ih =>
      cases p with
      | mk k₂ v =>
          simp only [lookupKey] at h ⊢
          by_cases hk : k = k₂
          · rw [if_pos hk] at h; cases h
          · rw [if_neg hk] at h ⊢
            exact ih h

theorem lookupKey_append_of_some {k v : String} {l₁ : List (String × String)}
    (l₂ : List (String × String)) (h : lookupKey k l₁ = some v) :
    lookupKey k (l₁ ++ l₂) = some v := by
  induction l₁ with
  | nil => cases h
  | cons p rest ih =>
      cases p with
      | mk k₂ w =>
          simp only [lookupKey] at h ⊢
          by_cases hk : k = k₂
          · rwa [if_pos hk] at h ⊢
          · rw [if_neg hk] at h ⊢
            exact ih h

theorem lookupKey_eq_none (k : String) (l : List (String × String)) :
    lookupKey k l = none ↔ k ∉ l.map Prod.fst := by
  induction l with
  | nil => simp [lookupKey]
  | cons p rest ih =>
      cases p with
      | mk k₂ v =>
          by_cases hk : k = k₂
          · subst hk; simp [lookupKey]
          · simp [lookupKey, if_neg hk, ih, hk]

theorem lookupKey_mem {k v : String} {l : List (String × String)}
    (h : lookupKey k l = some v) : (k, v) ∈ l := by
  induction l with
  | nil => cases h
  | cons p rest ih =>
      cases p with
      | mk k₂ w =>
          simp only [lookupKey] at h
          by_cases hk : k = k₂
          · rw [if_pos hk] at h
            cases h
            subst hk
            exact List.mem_cons_self _ _
          · rw [if_neg hk] at h
            exact List.mem_cons_of_mem _ (ih h)

theorem foldl_repStep_pairs (names : List String) : ∀ rep : List (String × String),
    (∀ p ∈ rep, norm_key p.2 = p.1 ∧ p.1 ≠ "") →
    ∀ p ∈ names.foldl repStep rep, norm_key p.2 = p.1 ∧ p.1 ≠ "" := by
  induction names with
  | nil => intro rep h; exact h
  | cons n rest ih =>
      intro rep h
      rw [List.foldl_cons]
      apply ih
      intro p hp
      unfold repStep at hp
      split at hp
      · rename_i hcond
        rcases List.mem_append.mp hp with hold | hnew
        · exact h p hold
        · rcases List.mem_singleton.mp hnew with rfl
          exact ⟨rfl, hcond.1⟩
      · exact h p hp

theorem foldl_repStep_nodup (names : List String) : ∀ rep : List (String × String),
    (rep.map Prod.fst).Nodup → ((names.foldl repStep rep).map Prod.fst).Nodup := by
  induction names with
  | nil => intro rep h; exact h
  | cons n rest ih =>
      intro rep h
      rw [List.foldl_cons]
      apply ih
      unfold repStep
      split
      · rename_i hcond
        have hnot : norm_key n ∉ rep.map Prod.fst :=
          (lookupKey_eq_none _ _).mp hcond.2
        simp [List.nodup_append, h, hnot]
      · exact h

theorem foldl_repStep_lookup (names : List String) : ∀ (rep : List (String × String))
    (k : String), k ≠ "" →
    lookupKey k (names.foldl repStep rep) =
      (match lookupKey k rep with
       | some v => some v
       | none => (names.filter (fun n => decide (norm_key n = k))).head?) := by
  induction names with
  | nil =>
      intro rep k _
      cases h : lookupKey k rep <;> simp [h]
  | cons n rest ih =>
      intro rep k hk
      rw [List.foldl_cons, ih (repStep rep n) k hk]
      by_cases hkey : norm_key n = k
      · rw [List.filter_cons_of_pos (by simp [hkey])]
        cases hrep : lookupKey k rep with
        | some v =>
            have hstep : repStep rep n = rep := by
              unfold repStep
              rw [if_neg]
              rintro ⟨-, hnone⟩
              rw [hkey, hrep] at hnone
              cases hnone
            rw [hstep, hrep]
        | none =>
            have hstep : repStep rep n = rep ++ [(k, n)] := by
              unfold repStep
              rw [hkey, if_pos ⟨hk, hrep⟩]
            rw [hstep, lookupKey_append_of_none _ hrep]
            simp [lookupKey]
      · rw [List.filter_cons_of_neg (by simp [hkey])]
        have hstep : lookupKey k (repStep rep n) = lookupKey k rep := by
          unfold repStep
          split
          · cases hrep : lookupKey k rep with
            | some v => rw [lookupKey_append_of_some _ hrep]
            | none =>
                rw [lookupKey_append_of_none _ hrep]
                simp only [lookupKey]
                rw [if_neg (fun h => hkey h.symm)]
          · rfl
        rw [hstep]

/-- Core properties of the sorted representative emission, stated over
the raw name stream. -/
theorem build_rep_sorted_spec (names : List String) :
    (((List.insertionSort strLe ((build_rep names).map Prod.fst)).map
        (fun k => (lookupKey k (build_rep names)).getD "")).map norm_key).Nodup ∧
    List.Pairwise (fun a b => strLt (norm_key a) (norm_key b))
      ((List.insertionSort strLe ((build_rep names).map Prod.fst)).map
        (fun k => (lookupKey k (build_rep names)).getD "")) ∧
    (∀ v ∈ (List.insertionSort strLe ((build_rep names).map Prod.fst)).map
        (fun k => (lookupKey k (build_rep names)).getD ""),
      (names.filter (fun n => decide (norm_key n = norm_key v))).head? = some v) := by
  have hpairs : ∀ p ∈ build_rep names, norm_key p.2 = p.1 ∧ p.1 ≠ "" :=
    foldl_repStep_pairs names [] (by simp)
  have hnodup : ((build_rep names).map Prod.fst).Nodup :=
    foldl_repStep_nodup names [] (by simp)
  have hperm : List.Perm (List.insertionSort strLe ((build_rep names).map Prod.fst))
      ((build_rep names).map Prod.fst) := List.perm_insertionSort _ _
  have hsknodup : (List.insertionSort strLe ((build_rep names).map Prod.fst)).Nodup :=
    hperm.nodup_iff.mpr hnodup
  have hmemkeys : ∀ k ∈ List.insertionSort strLe ((build_rep names).map Prod.fst),
      k ∈ (build_rep names).map Prod.fst := fun k hk => hperm.mem_iff.mp hk
  have hfetch : ∀ k ∈ (build_rep names).map Prod.fst,
      ∃ v, lookupKey k (build_rep names) = some v ∧ norm_key v = k ∧ k ≠ "" := by
    intro k hk
    cases hlk : lookupKey k (build_rep names) with
    | none => exact absurd hk ((lookupKey_eq_none k _).mp hlk)
    | some v =>
        have hp := hpairs (k, v) (lookupKey_mem hlk)
        exact ⟨v, rfl, hp.1, hp.2⟩
  have hfetchval : ∀ k ∈ List.insertionSort strLe ((build_rep names).map Prod.fst),
      norm_key ((lookupKey k (build_rep names)).getD "") = k := by
    intro k hk
    obtain ⟨v, hv, hnv, -⟩ := hfetch k (hmemkeys k hk)
    rw [hv]
    exact hnv
  have hmapid : ((List.insertionSort strLe ((build_rep names).map Prod.fst)).map
      (fun k => (lookupKey k (build_rep names)).getD "")).map norm_key =
      List.insertionSort strLe ((build_rep names).map Prod.fst) := by
    rw [List.map_map]
    calc (List.insertionSort strLe ((build_rep names).map Prod.fst)).map
          (norm_key ∘ fun k => (lookupKey k (build_rep names)).getD "")
        = (List.insertionSort strLe ((build_rep names).map Prod.fst)).map id :=
          List.map_congr_left (fun k hk => hfetchval k hk)
      _ = _ := List.map_id _
  refine ⟨?_, ?_, ?_⟩
  · rw [hmapid]
    exact hsknodup
  · have hsorted : List.Pairwise strLe
        (List.insertionSort strLe ((build_rep names).map Prod.fst)) :=
      List.sorted_insertionSort _ _
    have hne : List.Pairwise (fun a b : String => a ≠ b)
        (List.insertionSort strLe ((build_rep names).map Prod.fst)) := hsknodup
    rw [List.pairwise_map]
    exact (hsorted.and hne).imp_of_mem (fun {a b} ha hb hr => by
      show strLt (norm_key ((lookupKey a (build_rep names)).getD ""))
        (norm_key ((lookupKey b (build_rep names)).getD ""))
      rw [hfetchval a ha, hfetchval b hb]
      exact ⟨hr.1, hr.2⟩)
  · intro v hv
    obtain ⟨k, hk, rfl⟩ := List.mem_map.mp hv
    obtain ⟨w, hw, hnw, hkne⟩ := hfetch k (hmemkeys k hk)
    have h3 : lookupKey k (build_rep names) =
        (names.filter (fun n => decide (norm_key n = k))).head? := by
      have h4 := foldl_repStep_lookup names [] k hkne
      simpa [build_rep, lookupKey] using h4
    have hfk : (lookupKey k (build_rep names)).getD "" = w := by
      rw [hw]; rfl
    rw [hfk, hnw, ← h3, hw]

/-- C6: the author candidate list has pairwise distinct normalized
keys, is pairwise strictly ordered by normalized key, and each entry is
the first surface form carrying its key in the row-order stream of
strict-split author names. -/
theorem build_author_candidates_spec (cells : List String) :
    ((build_author_candidates cells).map norm_key).Nodup ∧
    List.Pairwise (fun a b => strLt (norm_key a) (norm_key b))
      (build_author_candidates cells) ∧
    (∀ v ∈ build_author_candidates cells,
      ((cells.flatMap split_authors).filter
        (fun n => decide (norm_key n = norm_key v))).head? = some v) := by
  have h := build_rep_sorted_spec (cells.flatMap split_authors)
  exact h

/-- Witness for C6: over the cells B,a and b the keys are a and b, the
stored surface forms are a and Bistro; the entry B is the first name
whose key is b. -/
theorem build_author_candidates_witness :
    ((["B, a", "b"].flatMap split_authors).filter
      (fun n => decide (norm_key n = norm_key "B"))).head? = some "B" :=
  (build_author_candidates_spec ["B, a", "b"]).2.2 "B" (by decide)

/-! C9: the keyword tokenizer against the loose delimiter split. -/

theorem data_mk (l : List Char) : (⟨l⟩ : String).data = l := rfl

theorem mem_squeezeSpaces (c : Char) : ∀ l : List Char, c ∈ squeezeSpaces l → c ∈ l := by
  intro l
  induction l with
  | nil => simp [squeezeSpaces]
  | cons a l ih =>
      cases l with
      | nil => simp [squeezeSpaces]
      | cons d rest =>
          simp only [squeezeSpaces]
          split
          · intro h
            exact List.mem_cons_of_mem _ (ih h)
          · intro h
            rcases List.mem_cons.mp h with rfl | h2
            · exact List.mem_cons_self _ _
            · exact List.mem_cons_of_mem _ (ih h2)

theorem mem_stripPy (c : Char) (l : List Char) (h : c ∈ stripPy l) : c ∈ l := by
  unfold stripPy at h
  have h1 := List.mem_reverse.mp h
  have h2 := (List.dropWhile_sublist _).mem h1
  have h3 := List.mem_reverse.mp h2
  exact (List.dropWhile_sublist _).mem h3

theorem mem_norm_space (c : Char) (s : String) (h : c ∈ (norm_space s).data) :
    ∃ d ∈ s.data, c = subSpace d := by
  unfold norm_space at h
  rw [data_mk] at h
  have h1 := mem_squeezeSpaces c _ (mem_stripPy c _ h)
  obtain ⟨d, hd, hcd⟩ := List.mem_map.mp h1
  exact ⟨d, hd, hcd.symm⟩

theorem norm_space_ws (s : String) :
    ∀ c ∈ (norm_space s).data, isPySpace c = true → c = ' ' := by
  intro c hc hws
  obtain ⟨d, _, rfl⟩ := mem_norm_space c s hc
  unfold subSpace at hws ⊢
  by_cases hpd : isPySpace d = true
  · rw [if_pos hpd]
  · rw [if_neg hpd] at hws ⊢
    exact absurd hws hpd

theorem toNat_ofNat_valid (n : Nat) (h : n.isValidChar) : (Char.ofNat n).toNat = n := by
  unfold Char.ofNat
  rw [dif_pos h]
  rfl

theorem lowerChar_toNat_of_upper (c : Char) (h : 65 ≤ c.toNat ∧ c.toNat ≤ 90) :
    (lowerChar c).toNat = c.toNat + 32 := by
  unfold lowerChar
  rw [if_pos h]
  exact toNat_ofNat_valid _ (Or.inl (by omega))

theorem lowerChar_eq_self (c : Char) (h : ¬(65 ≤ c.toNat ∧ c.toNat ≤ 90)) :
    lowerChar c = c := by
  unfold lowerChar
  rw [if_neg h]

theorem isPySpace_iff (c : Char) : isPySpace c = true ↔
    (c.toNat = 32 ∨ (9 ≤ c.toNat ∧ c.toNat ≤ 13) ∨ (28 ≤ c.toNat ∧ c.toNat ≤ 31) ∨
      c.toNat = 0x85 ∨ c.toNat = 0xA0 ∨ c.toNat = 0x1680 ∨
      (0x2000 ≤ c.toNat ∧ c.toNat ≤ 0x200A) ∨ c.toNat = 0x2028 ∨ c.toNat = 0x2029 ∨
      c.toNat = 0x202F ∨ c.toNat = 0x205F ∨ c.toNat = 0x3000) := by
  simp only [isPySpace, Bool.or_eq_true, Bool.and_eq_true, decide_eq_true_eq]
  omega

theorem isAuthorSep_iff (c : Char) : isAuthorSep c = true ↔
    (c.toNat = 59 ∨ c.toNat = 0xFF1B ∨ c.toNat = 44 ∨ c.toNat = 0x3001 ∨
      c.toNat = 0xFF0C ∨ c.toNat = 47 ∨ c.toNat = 0xFF0F ∨ c.toNat = 124 ∨
      c.toNat = 0xFF5C) := by
  simp only [isAuthorSep, Bool.or_eq_true, decide_eq_true_eq]
  omega

theorem isQuerySep_iff (c : Char) : isQuerySep c = true ↔
    (c.toNat = 32 ∨ c.toNat = 44 ∨ c.toNat = 0xFF0C ∨ c.toNat = 0x3001 ∨
      c.toNat = 0xFF1B ∨ c.toNat = 59 ∨ c.toNat = 0x3000) := by
  simp only [isQuerySep, Bool.or_eq_true, decide_eq_true_eq]
  omega

theorem norm_key_ws (s : String) :
    ∀ c ∈ (norm_key s).data, isPySpace c = true → c = ' ' := by
  intro c hc hws
  unfold norm_key at hc
  rw [data_mk] at hc
  obtain ⟨d, hd, rfl⟩ := List.mem_map.mp hc
  by_cases hud : 65 ≤ d.toNat ∧ d.toNat ≤ 90
  · exfalso
    have hln := lowerChar_toNat_of_upper d hud
    have hp := (isPySpace_iff _).mp hws
    omega
  · rw [lowerChar_eq_self d hud] at hws ⊢
    exact norm_space_ws s d hd hws

theorem norm_key_nosp (s : String)
    (h : ∀ c ∈ s.data, c.toNat ≠ 47 ∧ c.toNat ≠ 0xFF0F ∧ c.toNat ≠ 124 ∧ c.toNat ≠ 0xFF5C) :
    ∀ c ∈ (norm_key s).data,
      c.toNat ≠ 47 ∧ c.toNat ≠ 0xFF0F ∧ c.toNat ≠ 124 ∧ c.toNat ≠ 0xFF5C := by
  intro c hc
  unfold norm_key at hc
  rw [data_mk] at hc
  obtain ⟨d, hd, rfl⟩ := List.mem_map.mp hc
  obtain ⟨e, he, rfl⟩ := mem_norm_space d s hd
  have hde : (subSpace e).toNat = 32 ∨ (subSpace e).toNat = e.toNat := by
    unfold subSpace
    split
    · left; rfl
    · right; rfl
  have hee := h e he
  by_cases hud : 65 ≤ (subSpace e).toNat ∧ (subSpace e).toNat ≤ 90
  · have hln := lowerChar_toNat_of_upper _ hud
    omega
  · rw [lowerChar_eq_self _ hud]
    omega

theorem sep_agree (c : Char) (hws : isPySpace c = true → c = ' ')
    (hsl : c.toNat ≠ 47 ∧ c.toNat ≠ 0xFF0F ∧ c.toNat ≠ 124 ∧ c.toNat ≠ 0xFF5C) :
    isQuerySep c = isMultiSep c := by
  by_cases hp : isPySpace c = true
  · rw [hws hp]
    decide
  · have hp2 : isPySpace c = false := by
      cases h2 : isPySpace c
      · rfl
      · exact absurd h2 hp
    have hpn := (isPySpace_iff c).not.mp (by rw [hp2]; simp)
    unfold isMultiSep
    rw [hp2, Bool.or_false]
    cases hq : isQuerySep c <;> cases ha : isAuthorSep c
    · rfl
    · exfalso
      have hap := (isAuthorSep_iff c).mp ha
      have hqn := (isQuerySep_iff c).not.mp (by rw [hq]; simp)
      omega
    · exfalso
      have hqp := (isQuerySep_iff c).mp hq
      have han := (isAuthorSep_iff c).not.mp (by rw [ha]; simp)
      omega
    · rfl

theorem splitGo_congr (p q : Char → Bool) : ∀ (l acc : List Char),
    (∀ c ∈ l, p c = q c) → splitGo p l acc = splitGo q l acc := by
  intro l
  induction l with
  | nil => intro acc _; rfl
  | cons c cs ih =>
      intro acc h
      have hc := h c (List.mem_cons_self _ _)
      have hcs : ∀ x ∈ cs, p x = q x := fun x hx => h x (List.mem_cons_of_mem _ hx)
      simp only [splitGo]
      rw [← hc]
      by_cases hpc : p c = true
      · rw [if_pos hpc, if_pos hpc]
        by_cases hacc : acc = []
        · rw [if_pos hacc, if_pos hacc, ih [] hcs]
        · rw [if_neg hacc, if_neg hacc, ih [] hcs]
      · rw [if_neg hpc, if_neg hpc, ih (c :: acc) hcs]

theorem splitGo_tokens (p : Char → Bool) (L : List Char) : ∀ (l acc : List Char),
    (∀ c ∈ l, c ∈ L) → (∀ c ∈ acc, p c = false ∧ c ∈ L) →
    ∀ t ∈ splitGo p l acc, t ≠ [] ∧ ∀ c ∈ t, p c = false ∧ c ∈ L := by
  intro l
  induction l with
  | nil =>
      intro acc _ hacc t ht
      simp only [splitGo] at ht
      by_cases hacc0 : acc = []
      · rw [if_pos hacc0] at ht
        cases ht
      · rw [if_neg hacc0] at ht
        rcases List.mem_singleton.mp ht with rfl
        refine ⟨?_, fun c2 hc2 => hacc c2 (List.mem_reverse.mp hc2)⟩
        rw [ne_eq, List.reverse_eq_nil_iff]
        exact hacc0
  | cons c cs ih =>
      intro acc hL hacc t ht
      have hcL : c ∈ L := hL c (List.mem_cons_self _ _)
      have hcsL : ∀ x ∈ cs, x ∈ L := fun x hx => hL x (List.mem_cons_of_mem _ hx)
      simp only [splitGo] at ht
      by_cases hpc : p c = true
      · rw [if_pos hpc] at ht
        by_cases hacc0 : acc = []
        · rw [if_pos hacc0] at ht
          exact ih [] hcsL (by simp) t ht
        · rw [if_neg hacc0] at ht
          rcases List.mem_cons.mp ht with rfl | ht2
          · refine ⟨?_, fun c2 hc2 => hacc c2 (List.mem_reverse.mp hc2)⟩
            rw [ne_eq, List.reverse_eq_nil_iff]
            exact hacc0
          · exact ih [] hcsL (by simp) t ht2
      · have hpc2 : p c = false := by
          cases h2 : p c
          · rfl
          · exact absurd h2 hpc
        rw [if_neg hpc] at ht
        refine ih (c :: acc) hcsL ?_ t ht
        intro x hx
        rcases List.mem_cons.mp hx with rfl | hx2
        · exact ⟨hpc2, hcL⟩
        · exact hacc x hx2

theorem dropWhile_eq_self_of (p : Char → Bool) (l : List Char)
    (h : ∀ c ∈ l, p c = false) : l.dropWhile p = l := by
  cases l with
  | nil => rfl
  | cons c cs => simp [List.dropWhile_cons, h c (List.mem_cons_self c cs)]

theorem stripPy_eq_self (l : List Char) (h : ∀ c ∈ l, isPySpace c = false) :
    stripPy l = l := by
  unfold stripPy
  rw [dropWhile_eq_self_of _ _ h,
    dropWhile_eq_self_of _ _ (fun c hc => h c (List.mem_reverse.mp hc))]
  exact List.reverse_reverse l

/-- Counterexample to C9 as stated: the loose delimiter split treats
slashes as separators, the keyword tokenizer does not. -/
theorem tokens_query_cex :
    tokens_from_query "a/b" = ["a/b"] ∧
    split_multi (norm_key "a/b") = ["a", "b"] ∧
    (["a/b"] : List String) ≠ ["a", "b"] :=
  ⟨by decide, by decide, by decide⟩

/-- C9 (amended): for every query containing no slash and no vertical
bar (ASCII or full-width), the keyword token sequence equals the loose
delimiter split of the normalized query; queries containing those
characters keep them inside tokens, while the loose split would cut at
them. -/
theorem tokens_query_loose_split (q : String)
    (h : ∀ c ∈ q.data,
      c.toNat ≠ 47 ∧ c.toNat ≠ 0xFF0F ∧ c.toNat ≠ 124 ∧ c.toNat ≠ 0xFF5C) :
    tokens_from_query q = split_multi (norm_key q) := by
  have hagree : ∀ c ∈ (norm_key q).data, isQuerySep c = isMultiSep c :=
    fun c hc => sep_agree c (norm_key_ws q c hc) (norm_key_nosp q h c hc)
  have hsplit : splitOnPred isQuerySep (norm_key q).data =
      splitOnPred isMultiSep (norm_key q).data :=
    splitGo_congr _ _ _ [] hagree
  have htok := splitGo_tokens isMultiSep (norm_key q).data (norm_key q).data []
    (fun _ hc => hc) (by simp)
  unfold tokens_from_query split_multi
  rw [hsplit]
  have hmap : (splitOnPred isMultiSep (norm_key q).data).map
      (fun l => pyStrip (⟨l⟩ : String)) =
      (splitOnPred isMultiSep (norm_key q).data).map (fun l => (⟨l⟩ : String)) := by
    apply List.map_congr_left
    intro t ht
    obtain ⟨-, hchars⟩ := htok t ht
    show pyStrip ⟨t⟩ = ⟨t⟩
    unfold pyStrip
    rw [data_mk]
    congr 1
    apply stripPy_eq_self
    intro c hc
    have h2 := (hchars c hc).1
    unfold isMultiSep at h2
    exact (Bool.or_eq_false_iff.mp h2).2
  rw [hmap]
  symm
  apply List.filter_eq_self.mpr
  intro a ha
  obtain ⟨t, ht, rfl⟩ := List.mem_map.mp ha
  simp only [decide_eq_true_eq]
  intro hempty
  exact (htok t ht).1 (congrArg String.data hempty)

/-- Witness for C9 (amended): on a slash-free query the tokenizer and
the loose split of the normalized query agree. -/
theorem tokens_query_witness :
    tokens_from_query "清酒, 乳酸菌" = split_multi (norm_key "清酒, 乳酸菌") :=
  tokens_query_loose_split "清酒, 乳酸菌" (by decide)

end BrewApp
